import Mathlib

/-!
Verification of the training-orchestration core of the `erlich` repository.

The definitions below are a shallow embedding of the Python sources
`src/build/lib/erlich/trainer.py` (class `AvgEstimator`, class `BaseTrainer`)
and `src/erlich/manager.py` (class `Erlich`).  Python floats are modelled as
exact rationals (`ℚ`), Python dicts as association lists in insertion order,
and fallible Python code (code that can raise) as `Option`-returning
functions, with `none` standing for a raised exception.
-/

namespace Erlich

/-! ## AvgEstimator (trainer.py lines 25-35)

`AvgEstimator.__init__` sets `avg = 0.0`, `tot_weight = 0.0`.
`update(x, w)` runs `tot_weight += w; avg += (x - avg) * w / tot_weight`.
Python float division by zero raises `ZeroDivisionError`, which is modelled
by returning `none` exactly when the updated `tot_weight` is zero. -/

structure AvgEstimator where
  avg : ℚ
  tot_weight : ℚ
deriving DecidableEq

/-- Fresh estimator, as built by `AvgEstimator.__init__`. -/
def AvgEstimator.init : AvgEstimator := ⟨0, 0⟩

/-- One call of `AvgEstimator.update(x, w)`.  The divisor is the *updated*
total weight; a zero divisor raises in Python, hence `none` here. -/
def AvgEstimator.update (s : AvgEstimator) (x w : ℚ) : Option AvgEstimator :=
  let t := s.tot_weight + w
  if t = 0 then none
  else some ⟨s.avg + (x - s.avg) * w / t, t⟩

/-- `AvgEstimator.get()` returns `avg`. -/
def AvgEstimator.get (s : AvgEstimator) : ℚ := s.avg

/-- Run a sequence of `update(x, w)` calls; any raised exception aborts the
whole sequence. -/
def runUpdates : List (ℚ × ℚ) → AvgEstimator → Option AvgEstimator
  | [], s => some s
  | (x, w) :: rest, s =>
    match s.update x w with
    | none => none
    | some s' => runUpdates rest s'

/-- Total weight `Σ w_i` of an update sequence. -/
def sumW (l : List (ℚ × ℚ)) : ℚ := (l.map Prod.snd).sum

/-- Weighted sum `Σ w_i · x_i` of an update sequence. -/
def sumWX (l : List (ℚ × ℚ)) : ℚ := (l.map (fun p => p.2 * p.1)).sum

/-! ## Validation-trigger set (trainer.py lines 145-152)

`BaseTrainer.train(validate_every=-1, ...)` starts with:
`if validate_every == -1: validate_every = set()` else
`validate_every = {i for i in range(validate_every, len(self.dataloader),
validate_every)}.difference({len(self.dataloader) - 1})`. -/

/-- Number of elements of Python `range(start, stop, step)` for a positive
step, i.e. `⌈(stop - start) / step⌉` clipped at zero. -/
def pyRangeCount (start stop step : ℕ) : ℕ := (stop - start + step - 1) / step

/-- The trigger set built at the start of `BaseTrainer.train`.  The interval
is an `Int` because the sentinel is `-1`; for a positive interval `v` the
Python set comprehension over `range(v, n, v)` is `List.range' v.toNat _
v.toNat`.  (`n` is `len(self.dataloader)`, the batch count.) -/
def validateEverySet (v : Int) (n : ℕ) : Finset ℕ :=
  if v = -1 then ∅
  else (List.range' v.toNat (pyRangeCount v.toNat n v.toNat) v.toNat).toFinset \ {n - 1}

/-! ## Optimizer assignment (trainer.py lines 84-104)

`BaseTrainer.instantiate_optimizers(cfg)` iterates `cfg.parts` in order.
A part is trainable when `"frozen" not in part or part["frozen"] is False`.
A trainable part with its own `optimizer` spec gets a dedicated optimizer
keyed by the part name; the remaining trainable part names are pooled and,
if the pool is non-empty, one optimizer over the concatenation of their
parameters is stored under the reserved key `"__global"` using the
top-level `cfg.optimizer` spec (missing `cfg.optimizer` raises, hence the
`Option`).  `get_optimizer` itself (torch construction) is abstracted as
the pair of the spec it was handed and the exact parameter list. -/

/-- An optimizer spec is identified by its (name, hyperparameter) config;
abstracted to a string identifier. -/
abbrev OptSpec := String

/-- Abstraction of a constructed optimizer: the spec it was built from and
exactly the parameters it covers (parameters are opaque ids). -/
structure Optimizer where
  spec : OptSpec
  params : List ℕ
deriving DecidableEq

/-- Per-part configuration as read by `instantiate_optimizers`. -/
structure PartCfg where
  frozen : Option Bool
  optimizer : Option OptSpec
deriving DecidableEq

/-- Python condition `"frozen" not in part or part["frozen"] is False`. -/
def partTrainable (pc : PartCfg) : Prop := pc.frozen = none ∨ pc.frozen = some false

instance (pc : PartCfg) : Decidable (partTrainable pc) := by
  unfold partTrainable; infer_instance

/-- Shallow embedding of `BaseTrainer.instantiate_optimizers`.  `parts` is
`cfg.parts` in declaration order, `mp nm` enumerates
`self.model_parts[nm].parameters()`, and `globalOpt` is `cfg.optimizer`
(if present).  Returns the `self.optimizers` mapping in insertion order. -/
def instantiate_optimizers (parts : List (String × PartCfg))
    (mp : String → List ℕ) (globalOpt : Option OptSpec) :
    Option (List (String × Optimizer)) :=
  let step : List (String × Optimizer) × List String :=
    parts.foldl (fun acc p =>
      if partTrainable p.2 then
        match p.2.optimizer with
        | some o => (acc.1 ++ [(p.1, ⟨o, mp p.1⟩)], acc.2)
        | none => (acc.1, acc.2 ++ [p.1])
      else acc) ([], [])
  if step.2.isEmpty then some step.1
  else
    match globalOpt with
    | some g =>
      some (step.1 ++ [("__global", ⟨g, step.2.foldl (fun a nm => a ++ mp nm) []⟩)])
    | none => none

/-- Dedicated optimizers as the spec describes them: one per trainable part
that declares its own optimizer spec, keyed by part name, over exactly that
part's parameters, in declaration order. -/
def dedicatedOptimizers (parts : List (String × PartCfg))
    (mp : String → List ℕ) : List (String × Optimizer) :=
  parts.filterMap (fun p =>
    if partTrainable p.2 then
      p.2.optimizer.map (fun o => (p.1, (⟨o, mp p.1⟩ : Optimizer)))
    else none)

/-- Names of the pooled parts: trainable parts without their own optimizer
spec, in declaration order. -/
def pooledNames (parts : List (String × PartCfg)) : List String :=
  (parts.filter (fun p => partTrainable p.2 ∧ p.2.optimizer = none)).map Prod.fst

/-- Optimizer assignment as the spec states it: the dedicated optimizers
followed by, iff the pool is non-empty, a single global optimizer under the
reserved key `"__global"` over the union (concatenation) of the pooled
parts' parameters. -/
def assignSpec (parts : List (String × PartCfg)) (mp : String → List ℕ)
    (g : OptSpec) : List (String × Optimizer) :=
  dedicatedOptimizers parts mp ++
    (if pooledNames parts = [] then []
     else [("__global", ⟨g, (pooledNames parts).foldl (fun a nm => a ++ mp nm) []⟩)])

/-! ## Configuration model (manager.py, `Erlich.parse_config`, lines 57-100)

OmegaConf configuration trees are modelled as association lists in key
insertion order with scalar (string / integer / boolean), list and nested
mapping values.  `OmegaConf.merge(a, b)` is right-biased and merges nested
mappings recursively; all other value kinds are replaced by the right side.
Python dicts have unique keys, so list operations below use
first-occurrence semantics. -/

inductive CVal where
  | s (v : String)
  | n (v : Int)
  | b (v : Bool)
  | l (vs : List CVal)
  | m (kvs : List (String × CVal))

abbrev Config := List (String × CVal)

/-- First-occurrence key lookup (Python dict access). -/
def lookupC : Config → String → Option CVal
  | [], _ => none
  | (k', v) :: rest, k => if k' = k then some v else lookupC rest k

/-- Keyed assignment `conf[k] = v`: replace the first occurrence in place,
else append (Python dict insertion order). -/
def setKey : Config → String → CVal → Config
  | [], k, v => [(k, v)]
  | (k', v') :: rest, k, v =>
    if k' = k then (k, v) :: rest else (k', v') :: setKey rest k v

/-- Python `dict.pop(k)`: drop the first occurrence of the key. -/
def popKey : Config → String → Config
  | [], _ => []
  | (k', v) :: rest, k => if k' = k then rest else (k', v) :: popKey rest k

mutual
/-- `OmegaConf.merge(v1, v2)`: nested mappings merge recursively, any other
right-hand value replaces the left one. -/
def mergeVal (v1 v2 : CVal) : CVal :=
  match v1, v2 with
  | .m a, .m b => .m (insertAll a b)
  | _, v => v
termination_by (3 * sizeOf v2, 0)

/-- Merge every entry of `b` into `a`, left to right. -/
def insertAll (a b : List (String × CVal)) : List (String × CVal) :=
  match b with
  | [] => a
  | (k, w) :: rest => insertAll (insertMerge a k w) rest
termination_by (3 * sizeOf b + 1, 0)

/-- Merge one entry into a mapping: combine with the first occurrence of the
key if present, else append the entry. -/
def insertMerge (a : List (String × CVal)) (k : String) (w : CVal) :
    List (String × CVal) :=
  match a with
  | [] => [(k, w)]
  | (k', v) :: r =>
    if k' = k then (k', mergeVal v w) :: r else (k', v) :: insertMerge r k w
termination_by (3 * sizeOf w + 2, sizeOf a)
end

/-- Split a character list at every occurrence of the separator (Python
`str.split(sep)` for a one-character separator, as used with `"@"` and
`"."` in `parse_config`). -/
def splitChar (c : Char) : List Char → List (List Char)
  | [] => [[]]
  | ch :: rest =>
    match splitChar c rest with
    | [] => [[]]
    | cur :: done =>
      if ch = c then [] :: cur :: done
      else (ch :: cur) :: done

/-- Python `s.split(sep)` for a one-character separator. -/
def pySplit (sep : Char) (s : String) : List String :=
  (splitChar sep s.toList).map (fun cs => String.mk cs)

/-- Python `load_path.split("@")` / `load_path.split(".")` unpacking in
`parse_config`: a reference `modelID.partName` or `modelID.partName@tag`
(tag defaulting to `"latest"`); any other shape raises `ValueError`. -/
def parseRef (r : String) : Option (String × String × String) :=
  match (if r.toList.contains '@' then
      match pySplit '@' r with
      | [lp, ck] => some (lp, ck)
      | _ => none
    else some (r, "latest")) with
  | none => none
  | some (lp, ck) =>
    match pySplit '.' lp with
    | [mdl, pn] => some (mdl, pn, ck)
    | _ => none

/-- Option-valued map over a list, failing if any element fails (a Python
loop whose body can raise). -/
def mapMOpt {α β : Type} (f : α → Option β) : List α → Option (List β)
  | [] => some []
  | x :: rest =>
    match f x, mapMOpt f rest with
    | some y, some ys => some (y :: ys)
    | _, _ => none

/-- Per-part `load` resolution, manager.py lines 77-93.  `mdlF m` models
`OmegaConf.load(os.path.join(self.model_folder, m + ".yaml"))` (`none` when
the file does not exist).  The source part spec is merged with the current
part spec on top, the per-part `load` key is popped, and if the merged spec
has no `weights` entry one is synthesized as `modelID.partName@tag`.
Non-mapping source part specs are not modelled (`none`). -/
def resolvePart (mdlF : String → Option Config) (part : Config) :
    Option Config :=
  match lookupC part "load" with
  | none => some part
  | some (.s r) =>
    match parseRef r with
    | none => none
    | some (mdl, pn, ck) =>
      match mdlF mdl with
      | none => none
      | some srcCfg =>
        match lookupC srcCfg "parts" with
        | some (.m srcParts) =>
          match lookupC srcParts pn with
          | some (.m srcPart) =>
            let merged := popKey (insertAll srcPart part) "load"
            if (lookupC merged "weights").isSome then some merged
            else some (setKey merged "weights"
              (.s (mdl ++ "." ++ pn ++ "@" ++ ck)))
          | _ => none
        | _ => none
  | some _ => none

/-- Python `value * 2`, used for the eager default
`conf.batch_size * 2` (ints double, strings and lists self-concatenate,
booleans coerce to ints; nested mappings would raise but are never
exercised by the claims and are left unchanged). -/
def valTimes2 : CVal → CVal
  | .n v => .n (2 * v)
  | .s v => .s (v ++ v)
  | .b v => .n (if v then 2 else 0)
  | .l vs => .l (vs ++ vs)
  | .m kvs => .m kvs

/-- Shallow embedding of `Erlich.parse_config(name, additional)`,
manager.py lines 57-100.  `cfgF` models loading a named YAML file from the
config folder, `mdlF` from the model folder; `conf` is the already-loaded
base config and `additional` the config built from the CLI dot-list. -/
def parse_config (cfgF mdlF : String → Option Config) (conf : Config)
    (additional : Config) : Option Config :=
  let conf := insertAll conf additional
  match (match lookupC conf "load" with
    | none => some conf
    | some (.l names) =>
      match mapMOpt (fun v => match v with | CVal.s nm => cfgF nm | _ => none)
          names with
      | none => none
      | some loads => some (popKey ((loads ++ [conf]).foldl insertAll []) "load")
    | some _ => none) with
  | none => none
  | some conf =>
    match lookupC conf "parts" with
    | some (.m parts) =>
      match mapMOpt (fun p => match p.2 with
        | CVal.m pm => (resolvePart mdlF pm).map (fun pm' => (p.1, CVal.m pm'))
        | _ => some p) parts with
      | none => none
      | some parts' =>
        let conf := setKey conf "parts" (.m parts')
        let conf := setKey conf "batch_size"
          ((lookupC conf "batch_size").getD (.n 16))
        let conf := setKey conf "epochs" ((lookupC conf "epochs").getD (.n 10))
        let bs := (lookupC conf "batch_size").getD (.n 16)
        some (setKey conf "validation_batch_size"
          ((lookupC conf "validation_batch_size").getD (valTimes2 bs)))
    | _ => none

/-! ## Rank-dependent saver/logger (manager.py lines 228-236) and
checkpoint/validation machinery -/

/-- Generic first-occurrence association-list lookup (Python dict access)
for the non-config dictionaries (optimizers, estimators, metrics). -/
def lookupA {α : Type} : List (String × α) → String → Option α
  | [], _ => none
  | (k', v) :: rest, k => if k' = k then some v else lookupA rest k

/-- Generic keyed assignment `d[k] = v` (replace first occurrence in place,
else append). -/
def setA {α : Type} : List (String × α) → String → α → List (String × α)
  | [], k, v => [(k, v)]
  | (k', v') :: rest, k, v =>
    if k' = k then (k, v) :: rest else (k', v') :: setA rest k v

/-- The checkpoint writer constructed on rank 0 (`ModelSaver(mdl_path)`). -/
structure ModelSaver where
  path : String
deriving DecidableEq

/-- The progress logger constructed on rank 0
(`TrainLogger(mdl_path + ".log", cfg.epochs)`). -/
structure TrainLoggerM where
  logPath : String
  epochs : ℕ
deriving DecidableEq

/-- Saver assignment in `Erlich._train` (manager.py lines 228-236): rank 0
constructs the saver, every other rank gets `None`. -/
def assignSaver (rank : ℕ) (mdlPath : String) : Option ModelSaver :=
  if rank = 0 then some ⟨mdlPath⟩ else none

/-- Logger assignment in `Erlich._train` (manager.py lines 228-236): rank 0
constructs the logger, every other rank gets `None`. -/
def assignLogger (rank : ℕ) (mdlPath : String) (epochs : ℕ) :
    Option TrainLoggerM :=
  if rank = 0 then some ⟨mdlPath ++ ".log", epochs⟩ else none

/-- Modelled from the spec: `saver.py` and the current `trainer.py` are not
under `src/` (only the older `build/lib` trainer is), so the save entry
point is taken from spec §4.6: "Save is a no-op (returns immediately) if
invoked on a non-rank-0 process's saver (which is null by construction)".
The persisted store is the list of written snapshots (path, snapshot id);
a null saver leaves it untouched. -/
def saverSave (sv : Option ModelSaver) (store : List (String × ℕ))
    (snap : ℕ) : List (String × ℕ) :=
  match sv with
  | none => store
  | some s => store ++ [(s.path, snap)]

/-! ## Checkpoint-resume optimizer restore (manager.py lines 241-263,
trainer.py lines 38-49) -/

/-- Optimizer state blobs are opaque. -/
abbrev OptState := ℕ

/-- The slice of a checkpoint snapshot relevant to resume. -/
structure CheckpointData where
  parts : List (String × ℕ)
  optimizers : List (String × OptState)

/-- The loop `for k in checkpoint["optimizers"]:
trainer.optimizers[k].load_state_dict(checkpoint["optimizers"][k])`;
`trainer.optimizers[k]` on a missing key raises `KeyError` (`none`). -/
def restoreOptimizers (target : List (String × OptState)) :
    List (String × OptState) → Option (List (String × OptState))
  | [] => some target
  | (k, st) :: rest =>
    match lookupA target k with
    | none => none
    | some _ => restoreOptimizers (setA target k st) rest

/-- `BaseTrainer.__init__` (trainer.py line 46): `self.optimizers = dict()`. -/
def trainerInitOptimizers : List (String × OptState) := []

/-- Optimizer-setup slice of `Erlich._train` (manager.py lines 241-263): the
trainer is constructed with an *empty* optimizers dict; then, if
`load_checkpoint` is configured and `load_optimizers` is absent or true,
the checkpoint's optimizer states are restored into `trainer.optimizers`;
only afterwards (line 263) does `trainer.instantiate_optimizers(cfg)` fill
the dict with the freshly constructed optimizers (`instantiated`). -/
def trainSetupOptimizers (loadCheckpoint : Option CheckpointData)
    (loadOptimizers : Option Bool)
    (instantiated : List (String × OptState)) :
    Option (List (String × OptState)) :=
  let init := trainerInitOptimizers
  match loadCheckpoint with
  | none => some (instantiated.foldl (fun acc p => setA acc p.1 p.2) init)
  | some ckpt =>
    if loadOptimizers.getD true then
      match restoreOptimizers init ckpt.optimizers with
      | none => none
      | some restored =>
        some (instantiated.foldl (fun acc p => setA acc p.1 p.2) restored)
    else some (instantiated.foldl (fun acc p => setA acc p.1 p.2) init)

/-! ## Validation (trainer.py lines 123-143) and the epoch loop
(lines 177-204) -/

/-- Result of one `BaseTrainer.validate` call: the reduced metric dict it
prints and hands to the saver, and the list of metric sets passed to
`self.saver.save` (one entry per save call). -/
structure ValidateResult where
  metrics : List (String × ℚ)
  savedMetricSets : List (List (String × ℚ))

/-- Python `w = float(metrics.get("weight", 1.0))`. -/
def batchWeight (metrics : List (String × ℚ)) : ℚ :=
  (lookupA metrics "weight").getD 1

/-- The loop `for k in metrics: ... estimators[k].update(metrics[k], w)`,
creating a fresh `AvgEstimator` for unseen keys; a division by zero in
`update` propagates. -/
def processMetrics (ests : List (String × AvgEstimator)) (w : ℚ) :
    List (String × ℚ) → Option (List (String × AvgEstimator))
  | [] => some ests
  | (k, v) :: rest =>
    match ((lookupA ests k).getD AvgEstimator.init).update v w with
    | none => none
    | some est' => processMetrics (setA ests k est') w rest

/-- One validation batch: read the weight from the metrics returned by
`validation_step`, then feed every metric into its estimator. -/
def processBatch (ests : List (String × AvgEstimator))
    (metrics : List (String × ℚ)) : Option (List (String × AvgEstimator)) :=
  processMetrics ests (batchWeight metrics) metrics

/-- The `for batch_idx, batch in enumerate(self.validation_dataloader)`
loop; batches are opaque ids, `vstep b i` is the metrics dict returned by
`self.validation_step(batch, batch_idx)`. -/
def runValBatches (vstep : ℕ → ℕ → List (String × ℚ)) :
    List (ℕ × ℕ) → List (String × AvgEstimator) →
      Option (List (String × AvgEstimator))
  | [], ests => some ests
  | (i, b) :: rest, ests =>
    match processBatch ests (vstep b i) with
    | none => none
    | some ests' => runValBatches vstep rest ests'

/-- `BaseTrainer.validate`: with a validation dataloader, aggregate the
per-batch metrics into weighted running estimators and reduce them; without
one, the metric set is empty.  In both cases `self.saver.save(...)` is then
called exactly once with those metrics — unless an estimator update raised
first (`none`). -/
def validate (vdl : Option (List ℕ)) (vstep : ℕ → ℕ → List (String × ℚ)) :
    Option ValidateResult :=
  match vdl with
  | none => some ⟨[], [[]]⟩
  | some batches =>
    match runValBatches vstep batches.enum [] with
    | none => none
    | some ests =>
      let finals := ests.map (fun p => (p.1, p.2.get))
      some ⟨finals, [finals]⟩

/-- The validate invocations of `BaseTrainer.train` (lines 177-204) as an
`(epoch, train_batch)` trace: per epoch, one call per triggered batch index
and one unconditional end-of-epoch call labelled with
`len(self.dataloader)`. -/
def trainValidationCalls (epochs n : ℕ) (vset : Finset ℕ) : List (ℕ × ℕ) :=
  (List.range epochs).flatMap (fun e =>
    ((List.range n).filter (fun b => b ∈ vset)).map (fun b => (e, b)) ++ [(e, n)])

/-- C5: on every rank other than 0, the saver and logger are null by
construction, and invoking save there is a no-op that returns immediately
and persists nothing. -/
theorem update_eq_some {s : AvgEstimator} {x w : ℚ} (h : s.tot_weight + w ≠ 0) :
    s.update x w = some ⟨s.avg + (x - s.avg) * w / (s.tot_weight + w), s.tot_weight + w⟩ := by
  simp [AvgEstimator.update, h]

/-- Running-average invariant: from any state with positive total weight, a
sequence of nonnegative-weight updates succeeds, accumulates the total
weight, and keeps `avg * tot_weight` equal to the accumulated weighted sum. -/
theorem runUpdates_invariant (l : List (ℚ × ℚ)) :
    ∀ s : AvgEstimator, 0 < s.tot_weight → (∀ p ∈ l, 0 ≤ p.2) →
      ∃ s', runUpdates l s = some s' ∧
        s'.tot_weight = s.tot_weight + sumW l ∧
        s'.avg * s'.tot_weight = s.avg * s.tot_weight + sumWX l := by
  induction l with
  | nil =>
    intro s hs _
    exact ⟨s, rfl, by simp [sumW], by simp [sumWX]⟩
  | cons p rest ih =>
    intro s hs hnn
    obtain ⟨x, w⟩ := p
    have hw : 0 ≤ w := hnn (x, w) (List.mem_cons_self _ _)
    have ht : 0 < s.tot_weight + w := by linarith
    have ht' : s.tot_weight + w ≠ 0 := ne_of_gt ht
    obtain ⟨s', hrun, htot, havg⟩ :=
      ih ⟨s.avg + (x - s.avg) * w / (s.tot_weight + w), s.tot_weight + w⟩ ht
        (fun q hq => hnn q (List.mem_cons_of_mem _ hq))
    refine ⟨s', ?_, ?_, ?_⟩
    · simp only [runUpdates, update_eq_some ht']
      exact hrun
    · simp only [htot, sumW, List.map_cons, List.sum_cons]
      ring
    · rw [havg]
      dsimp only
      have hdiv : (x - s.avg) * w / (s.tot_weight + w) * (s.tot_weight + w)
          = (x - s.avg) * w := div_mul_cancel₀ _ ht'
      have hstep : (s.avg + (x - s.avg) * w / (s.tot_weight + w)) * (s.tot_weight + w)
          = s.avg * s.tot_weight + w * x := by
        have hexp : (s.avg + (x - s.avg) * w / (s.tot_weight + w)) * (s.tot_weight + w)
            = s.avg * (s.tot_weight + w)
              + (x - s.avg) * w / (s.tot_weight + w) * (s.tot_weight + w) := by ring
        rw [hexp, hdiv]; ring
      rw [hstep]
      simp only [sumWX, List.map_cons, List.sum_cons]
      ring

/-- Helper: a nonempty update sequence whose first weight is positive and all
weights nonnegative succeeds from a fresh estimator and yields the exact
weighted mean. -/
theorem runUpdates_first_pos (x w : ℚ) (l : List (ℚ × ℚ)) (hw : 0 < w)
    (hnn : ∀ p ∈ (x, w) :: l, 0 ≤ p.2) :
    ∃ s, runUpdates ((x, w) :: l) AvgEstimator.init = some s ∧
      s.get = sumWX ((x, w) :: l) / sumW ((x, w) :: l) := by
  have hw0 : (AvgEstimator.init.tot_weight + w) ≠ 0 := by
    simp [AvgEstimator.init]; exact ne_of_gt hw
  have hfirst : AvgEstimator.init.update x w = some ⟨x, w⟩ := by
    rw [update_eq_some hw0]
    simp [AvgEstimator.init]
    field_simp
  obtain ⟨s, hrun, htot, havg⟩ := runUpdates_invariant l ⟨x, w⟩ (by simpa using hw)
    (fun q hq => hnn q (List.mem_cons_of_mem _ hq))
  have hsum_nonneg : 0 ≤ sumW l := by
    apply List.sum_nonneg
    intro a ha
    obtain ⟨q, hq, rfl⟩ := List.mem_map.1 ha
    exact hnn q (List.mem_cons_of_mem _ hq)
  have htotpos : 0 < s.tot_weight := by
    rw [htot]; dsimp only; linarith
  refine ⟨s, ?_, ?_⟩
  · simp only [runUpdates, hfirst]
    exact hrun
  · have hWsum : sumW ((x, w) :: l) = w + sumW l := by
      simp [sumW]
    have hWXsum : sumWX ((x, w) :: l) = w * x + sumWX l := by
      simp [sumWX]
    have havg' : s.avg * s.tot_weight = w * x + sumWX l := by
      rw [havg]; dsimp only; ring
    rw [AvgEstimator.get, hWsum, hWXsum, ← havg', htot]
    dsimp only
    field_simp

/-- C1 (amended): if every weight is nonnegative and the *first* weight is
positive (so no update divides by zero), `get()` returns the exact weighted
mean `Σ(w_i·x_i)/Σw_i` over exact rationals, and every permutation of the
update sequence whose first weight is positive yields the same result. -/
theorem avgEstimator_weighted_mean (x w : ℚ) (l : List (ℚ × ℚ)) (hw : 0 < w)
    (hnn : ∀ p ∈ (x, w) :: l, 0 ≤ p.2) :
    ∃ s, runUpdates ((x, w) :: l) AvgEstimator.init = some s ∧
      s.get = sumWX ((x, w) :: l) / sumW ((x, w) :: l) ∧
      ∀ (y v : ℚ) (l₂ : List (ℚ × ℚ)),
        ((y, v) :: l₂).Perm ((x, w) :: l) → 0 < v →
          ∃ s₂, runUpdates ((y, v) :: l₂) AvgEstimator.init = some s₂ ∧
            s₂.get = s.get := by
  obtain ⟨s, hrun, hget⟩ := runUpdates_first_pos x w l hw hnn
  refine ⟨s, hrun, hget, ?_⟩
  intro y v l₂ hperm hv
  have hnn₂ : ∀ p ∈ (y, v) :: l₂, 0 ≤ p.2 := fun p hp => hnn p (hperm.mem_iff.1 hp)
  obtain ⟨s₂, hrun₂, hget₂⟩ := runUpdates_first_pos y v l₂ hv hnn₂
  refine ⟨s₂, hrun₂, ?_⟩
  have hW : sumW ((y, v) :: l₂) = sumW ((x, w) :: l) := by
    unfold sumW
    exact (hperm.map Prod.snd).sum_eq
  have hWX : sumWX ((y, v) :: l₂) = sumWX ((x, w) :: l) := by
    unfold sumWX
    exact (hperm.map (fun p => p.2 * p.1)).sum_eq
  rw [hget₂, hget, hW, hWX]

/-- C1 counterexample: the claim as stated fails.  The sequence
`[(5, 0), (3, 1)]` has all weights nonnegative and one positive weight, yet
the very first `update(5, 0)` divides by zero (`tot_weight` is still `0`),
so the run raises instead of returning the weighted mean `3`. -/
theorem avgEstimator_zero_first_weight_fails :
    runUpdates [((5 : ℚ), 0), (3, 1)] AvgEstimator.init = none ∧
      ¬∃ s, runUpdates [((5 : ℚ), 0), (3, 1)] AvgEstimator.init = some s ∧
        s.get = sumWX [((5 : ℚ), 0), (3, 1)] / sumW [((5 : ℚ), 0), (3, 1)] := by
  have hnone : runUpdates [((5 : ℚ), 0), (3, 1)] AvgEstimator.init = none := by
    simp [runUpdates, AvgEstimator.update, AvgEstimator.init]
  refine ⟨hnone, ?_⟩
  rintro ⟨s, hs, -⟩
  rw [hnone] at hs
  exact Option.noConfusion hs

/-- C1 witness: concrete instance `[(3, 1), (5, 0)]` of the amended claim. -/
theorem avgEstimator_weighted_mean_witness :
    (0 : ℚ) < 1 ∧
      ∃ s, runUpdates [((3 : ℚ), 1), (5, 0)] AvgEstimator.init = some s ∧
        s.get = sumWX [((3 : ℚ), 1), (5, 0)] / sumW [((3 : ℚ), 1), (5, 0)] ∧
        ∀ (y v : ℚ) (l₂ : List (ℚ × ℚ)),
          ((y, v) :: l₂).Perm [((3 : ℚ), 1), (5, 0)] → 0 < v →
            ∃ s₂, runUpdates ((y, v) :: l₂) AvgEstimator.init = some s₂ ∧
              s₂.get = s.get :=
  ⟨by norm_num, avgEstimator_weighted_mean 3 1 [(5, 0)] (by norm_num)
    (by norm_num [List.forall_mem_cons])⟩

/-- C8: starting from a state with nonnegative total weight (the invariant of
all states the program can reach, since observed weights are nonnegative),
`update(x, 0)` raises if and only if `tot_weight` is not already positive;
in particular `tot_weight = 0` is a defined failure, not a silent `0`. -/
theorem update_zero_fails_iff_not_pos (s : AvgEstimator) (x : ℚ)
    (h : 0 ≤ s.tot_weight) :
    (s.update x 0 = none ↔ ¬0 < s.tot_weight) ∧
      (s.tot_weight = 0 → s.update x 0 = none) := by
  by_cases h0 : s.tot_weight = 0
  · refine ⟨⟨fun _ => ?_, fun _ => ?_⟩, fun _ => ?_⟩
    · rw [h0]; exact lt_irrefl 0
    · simp [AvgEstimator.update, h0]
    · simp [AvgEstimator.update, h0]
  · have hpos : 0 < s.tot_weight := lt_of_le_of_ne h (Ne.symm h0)
    refine ⟨⟨fun hnone => ?_, fun hnpos => absurd hpos hnpos⟩,
      fun hz => absurd hz h0⟩
    simp [AvgEstimator.update, h0] at hnone

/-- C8 witness: a fresh estimator has `tot_weight = 0 ≥ 0`, and
`update(7, 0)` on it is a failure. -/
theorem update_zero_fails_witness :
    (0 : ℚ) ≤ AvgEstimator.init.tot_weight ∧
      ((AvgEstimator.init.update 7 0 = none ↔ ¬0 < AvgEstimator.init.tot_weight) ∧
        (AvgEstimator.init.tot_weight = 0 → AvgEstimator.init.update 7 0 = none)) :=
  ⟨by norm_num [AvgEstimator.init],
    update_zero_fails_iff_not_pos AvgEstimator.init 7 (by norm_num [AvgEstimator.init])⟩

/-- C10: with positive total weight, `update(x, 0)` leaves the estimator
completely unchanged (both `avg` and `tot_weight`), so `get()` is the same
before and after. -/
theorem update_zero_weight_frame (s : AvgEstimator) (x : ℚ)
    (h : 0 < s.tot_weight) :
    s.update x 0 = some s := by
  obtain ⟨a, t⟩ := s
  have ht : t ≠ 0 := ne_of_gt h
  simp [AvgEstimator.update, ht]

/-- C10 witness: concrete state `avg = 3, tot_weight = 2`. -/
theorem update_zero_weight_frame_witness :
    (0 : ℚ) < (AvgEstimator.mk 3 2).tot_weight ∧
      (AvgEstimator.mk 3 2).update 9 0 = some (AvgEstimator.mk 3 2) :=
  ⟨by norm_num, update_zero_weight_frame (AvgEstimator.mk 3 2) 9 (by norm_num)⟩

theorem mem_pyRange {k n i : ℕ} (hk : 0 < k) :
    i ∈ List.range' k (pyRangeCount k n k) k ↔ 0 < i ∧ k ∣ i ∧ i < n := by
  rw [List.mem_range']
  constructor
  · rintro ⟨j, hj, rfl⟩
    refine ⟨by positivity, ⟨1 + j, by ring⟩, ?_⟩
    have hle : (j + 1) * k ≤ n - k + k - 1 :=
      (Nat.le_div_iff_mul_le hk).1 (Nat.succ_le_of_lt hj)
    rcases le_or_lt k n with hkn | hnk
    · have hrw : n - k + k - 1 = n - 1 := by rw [Nat.sub_add_cancel hkn]
      rw [hrw] at hle
      have hn : 0 < n := lt_of_lt_of_le hk hkn
      have : (j + 1) * k < n := lt_of_le_of_lt hle (Nat.pred_lt (Nat.pos_iff_ne_zero.1 hn))
      calc k + k * j = (j + 1) * k := by ring
        _ < n := this
    · exfalso
      have hrw : n - k + k - 1 = k - 1 := by
        rw [Nat.sub_eq_zero_of_le (le_of_lt hnk), Nat.zero_add]
      rw [hrw] at hle
      have : k ≤ (j + 1) * k := Nat.le_mul_of_pos_left k (Nat.succ_pos j)
      omega
  · rintro ⟨hpos, ⟨m, rfl⟩, hlt⟩
    have hm : 0 < m := by
      rcases Nat.eq_zero_or_pos m with h0 | h0
      · subst h0; simp at hpos
      · exact h0
    refine ⟨m - 1, ?_, ?_⟩
    · rw [pyRangeCount, Nat.lt_iff_add_one_le, Nat.sub_add_cancel hm,
        Nat.le_div_iff_mul_le hk]
      rcases le_or_lt k n with hkn | hnk
      · have hrw : n - k + k - 1 = n - 1 := by rw [Nat.sub_add_cancel hkn]
        rw [hrw]
        have hcomm : m * k = k * m := Nat.mul_comm m k
        omega
      · exfalso
        have hkm : k ≤ k * m := Nat.le_mul_of_pos_right k hm
        omega
    · have h1 : k * (m - 1) + k * 1 = k * m := by
        rw [← Nat.mul_add]
        congr 1
        omega
      omega

/-- C3: for a positive interval `v`, the trigger set is exactly the positive
multiples of `v` strictly below the batch count `n`, with the last batch
index `n - 1` removed; the sentinel `-1` yields the empty set; and for
`n = 10`, `v = 3` the set is exactly `{3, 6}`. -/
theorem validateEverySet_spec (v : Int) (n : ℕ) (hv : 0 < v) :
    (∀ i, i ∈ validateEverySet v n ↔
        0 < i ∧ v.toNat ∣ i ∧ i < n ∧ i ≠ n - 1) ∧
      (∀ m, validateEverySet (-1) m = ∅) ∧
      validateEverySet 3 10 = {3, 6} := by
  refine ⟨?_, ?_, ?_⟩
  · intro i
    have hne : v ≠ -1 := by omega
    have hk : 0 < v.toNat := by omega
    rw [validateEverySet, if_neg hne, Finset.mem_sdiff, List.mem_toFinset,
      mem_pyRange hk, Finset.mem_singleton]
    tauto
  · intro m
    simp [validateEverySet]
  · decide

/-- C3 witness: instance at `v = 3`, `n = 10`. -/
theorem validateEverySet_spec_witness :
    (0 : Int) < 3 ∧
      ((∀ i, i ∈ validateEverySet 3 10 ↔
          0 < i ∧ (3 : Int).toNat ∣ i ∧ i < 10 ∧ i ≠ 10 - 1) ∧
        (∀ m, validateEverySet (-1) m = ∅) ∧
        validateEverySet 3 10 = {3, 6}) :=
  ⟨by norm_num, validateEverySet_spec 3 10 (by norm_num)⟩

theorem instantiate_foldl_eq (parts : List (String × PartCfg))
    (mp : String → List ℕ) :
    ∀ acc : List (String × Optimizer) × List String,
      parts.foldl (fun acc p =>
        if partTrainable p.2 then
          match p.2.optimizer with
          | some o => (acc.1 ++ [(p.1, (⟨o, mp p.1⟩ : Optimizer))], acc.2)
          | none => (acc.1, acc.2 ++ [p.1])
        else acc) acc
      = (acc.1 ++ dedicatedOptimizers parts mp, acc.2 ++ pooledNames parts) := by
  induction parts with
  | nil => intro acc; simp [dedicatedOptimizers, pooledNames]
  | cons p rest ih =>
    intro acc
    rw [List.foldl_cons]
    by_cases htr : partTrainable p.2
    · rcases ho : p.2.optimizer with _ | o
      · rw [if_pos htr, ih]
        simp [dedicatedOptimizers, pooledNames, htr, ho, List.filter_cons,
          List.filterMap_cons]
      · rw [if_pos htr, ih]
        simp [dedicatedOptimizers, pooledNames, htr, ho, List.filter_cons,
          List.filterMap_cons]
    · rw [if_neg htr, ih]
      simp [dedicatedOptimizers, pooledNames, htr, List.filter_cons,
        List.filterMap_cons]

/-- Unique first components make the second component a function of the
first within an association list. -/
theorem eq_snd_of_nodup_fst {α β : Type} {a : α} {b c : β} :
    ∀ {l : List (α × β)}, (l.map Prod.fst).Nodup →
      (a, b) ∈ l → (a, c) ∈ l → b = c := by
  intro l
  induction l with
  | nil => intro _ h1 _; exact absurd h1 (List.not_mem_nil _)
  | cons x t ih =>
    intro h h1 h2
    rw [List.map_cons] at h
    have hx := (List.nodup_cons.1 h).1
    have ht := (List.nodup_cons.1 h).2
    rcases List.mem_cons.1 h1 with e1 | m1
    · rcases List.mem_cons.1 h2 with e2 | m2
      · have heq : (a, b) = (a, c) := e1.trans e2.symm
        injection heq
      · exfalso
        apply hx
        have hmem : a ∈ t.map Prod.fst := List.mem_map_of_mem Prod.fst m2
        rw [← e1]
        exact hmem
    · rcases List.mem_cons.1 h2 with e2 | m2
      · exfalso
        apply hx
        have hmem : a ∈ t.map Prod.fst := List.mem_map_of_mem Prod.fst m1
        rw [← e2]
        exact hmem
      · exact ih ht m1 m2

/-- Membership in the keys of the result characterizes the assignment. -/
theorem keys_assignSpec (parts : List (String × PartCfg))
    (mp : String → List ℕ) (g : OptSpec) :
    (assignSpec parts mp g).map Prod.fst =
      (dedicatedOptimizers parts mp).map Prod.fst ++
        (if pooledNames parts = [] then [] else ["__global"]) := by
  rw [assignSpec, List.map_append]
  by_cases hp : pooledNames parts = [] <;> simp [hp]

/-- C2: `instantiate_optimizers` realizes exactly the spec's partition:
dedicated optimizers for trainable parts with their own spec (keyed by part
name, over exactly that part's parameters), and — iff the pool of remaining
trainable parts is non-empty — a single global optimizer under the reserved
key `"__global"` over the concatenation of the pooled parts' parameters.
Frozen parts are assigned no optimizer: with unique part names none of
which is the reserved key, a frozen part's name is not a key of the
result. -/
theorem instantiate_optimizers_spec (parts : List (String × PartCfg))
    (mp : String → List ℕ) (g : OptSpec)
    (hnd : (parts.map Prod.fst).Nodup)
    (hng : "__global" ∉ parts.map Prod.fst) :
    instantiate_optimizers parts mp (some g) = some (assignSpec parts mp g) ∧
      ∀ nm pc, (nm, pc) ∈ parts → pc.frozen = some true →
        nm ∉ (assignSpec parts mp g).map Prod.fst := by
  constructor
  · rw [instantiate_optimizers]
    rw [instantiate_foldl_eq parts mp ([], [])]
    simp only [List.nil_append]
    by_cases hp : pooledNames parts = []
    · simp [hp, assignSpec, List.isEmpty_iff]
    · rw [if_neg (by simpa [List.isEmpty_iff] using hp)]
      simp [assignSpec, hp]
  · intro nm pc hmem hfrozen
    rw [keys_assignSpec]
    intro hin
    have hnm_ne : nm ≠ "__global" := by
      intro h
      exact hng (h ▸ List.mem_map_of_mem Prod.fst hmem)
    rcases List.mem_append.1 hin with hded | hglob
    · rw [dedicatedOptimizers] at hded
      obtain ⟨q, hq, hq2⟩ := List.mem_map.1 hded
      obtain ⟨p, hpmem, hpq⟩ := List.mem_filterMap.1 hq
      by_cases htr : partTrainable p.2
      · rw [if_pos htr] at hpq
        obtain ⟨o, ho, hqo⟩ := Option.map_eq_some'.1 hpq
        have hfst : p.1 = nm := by
          rw [← hqo] at hq2
          simpa using hq2
        -- two entries of `parts` share the name `nm`: `p` (trainable) and
        -- `(nm, pc)` (frozen); Nodup of names forces their cfgs equal
        have hp' : (nm, p.2) ∈ parts := by
          have hpeq : (nm, p.2) = p := by
            obtain ⟨p1, p2⟩ := p
            exact congrArg (fun z => (z, p2)) hfst.symm
          rw [hpeq]
          exact hpmem
        have hpc : pc = p.2 := eq_snd_of_nodup_fst hnd hmem hp'
        rcases htr with h | h
        · rw [← hpc, hfrozen] at h
          exact Option.noConfusion h
        · rw [← hpc, hfrozen] at h
          simp at h
      · rw [if_neg htr] at hpq
        exact Option.noConfusion hpq
    · by_cases hp : pooledNames parts = []
      · rw [if_pos hp] at hglob
        exact (List.not_mem_nil nm) hglob
      · rw [if_neg hp] at hglob
        exact hnm_ne (List.mem_singleton.1 hglob)

/-- C2 witness: the spec's four-part example `{A: frozen}`,
`{B: has own optimizer}`, `{C: none}`, `{D: none}` yields exactly the keys
`B` and `__global`, with the global optimizer over C's and D's parameters
jointly. -/
theorem instantiate_optimizers_spec_witness :
    (([("A", PartCfg.mk (some true) none), ("B", PartCfg.mk none (some "adam")),
        ("C", PartCfg.mk none none), ("D", PartCfg.mk none none)].map
          Prod.fst).Nodup ∧
      "__global" ∉ [("A", PartCfg.mk (some true) none),
        ("B", PartCfg.mk none (some "adam")), ("C", PartCfg.mk none none),
        ("D", PartCfg.mk none none)].map Prod.fst) ∧
    (instantiate_optimizers
        [("A", PartCfg.mk (some true) none), ("B", PartCfg.mk none (some "adam")),
          ("C", PartCfg.mk none none), ("D", PartCfg.mk none none)]
        (fun nm => if nm = "B" then [10] else if nm = "C" then [20]
          else if nm = "D" then [30] else [0])
        (some "sgd")
      = some (assignSpec
          [("A", PartCfg.mk (some true) none), ("B", PartCfg.mk none (some "adam")),
            ("C", PartCfg.mk none none), ("D", PartCfg.mk none none)]
          (fun nm => if nm = "B" then [10] else if nm = "C" then [20]
            else if nm = "D" then [30] else [0]) "sgd") ∧
      ∀ nm pc, (nm, pc) ∈ [("A", PartCfg.mk (some true) none),
          ("B", PartCfg.mk none (some "adam")), ("C", PartCfg.mk none none),
          ("D", PartCfg.mk none none)] → pc.frozen = some true →
        nm ∉ (assignSpec
          [("A", PartCfg.mk (some true) none), ("B", PartCfg.mk none (some "adam")),
            ("C", PartCfg.mk none none), ("D", PartCfg.mk none none)]
          (fun nm => if nm = "B" then [10] else if nm = "C" then [20]
            else if nm = "D" then [30] else [0]) "sgd").map Prod.fst) ∧
    assignSpec
        [("A", PartCfg.mk (some true) none), ("B", PartCfg.mk none (some "adam")),
          ("C", PartCfg.mk none none), ("D", PartCfg.mk none none)]
        (fun nm => if nm = "B" then [10] else if nm = "C" then [20]
          else if nm = "D" then [30] else [0]) "sgd"
      = [("B", ⟨"adam", [10]⟩), ("__global", ⟨"sgd", [20, 30]⟩)] :=
  ⟨⟨by decide, by decide⟩,
    instantiate_optimizers_spec _ _ "sgd" (by decide) (by decide),
    by decide⟩

/-! ### Association-list lemmas for the config model -/

theorem lookupC_eq_none {l : Config} {k : String}
    (h : k ∉ l.map Prod.fst) : lookupC l k = none := by
  induction l with
  | nil => rfl
  | cons x t ih =>
    rw [List.map_cons, List.mem_cons] at h
    push_neg at h
    simp [lookupC, Ne.symm h.1, ih h.2]

theorem lookupC_insertMerge (a : Config) (k : String) (w : CVal)
    (k' : String) :
    lookupC (insertMerge a k w) k' =
      if k' = k then
        (match lookupC a k with
          | some v => some (mergeVal v w)
          | none => some w)
      else lookupC a k' := by
  induction a with
  | nil =>
    by_cases h : k' = k
    · subst h
      simp [insertMerge, lookupC]
    · simp [insertMerge, lookupC, h, Ne.symm h]
  | cons x t ih =>
    obtain ⟨k₀, v₀⟩ := x
    by_cases h0 : k₀ = k
    · subst h0
      by_cases h : k' = k₀
      · subst h
        simp [insertMerge, lookupC]
      · simp [insertMerge, lookupC, h, Ne.symm h]
    · by_cases h1 : k₀ = k'
      · subst h1
        simp [insertMerge, lookupC, h0]
      · simp [insertMerge, lookupC, h0, h1, ih]

theorem lookupC_insertAll (k : String) :
    ∀ b : List (String × CVal), (b.map Prod.fst).Nodup →
      ∀ a : Config,
        lookupC (insertAll a b) k =
          match lookupC b k with
          | some w =>
            (match lookupC a k with
              | some v => some (mergeVal v w)
              | none => some w)
          | none => lookupC a k := by
  intro b
  induction b with
  | nil => intro _ a; rw [insertAll, lookupC]
  | cons x rest ih =>
    obtain ⟨k₁, w₁⟩ := x
    intro hb a
    rw [List.map_cons, List.nodup_cons] at hb
    rw [insertAll, ih hb.2, lookupC]
    by_cases h : k₁ = k
    · subst h
      rw [if_pos rfl, lookupC_eq_none hb.1, lookupC_insertMerge, if_pos rfl]
    · rw [if_neg h, lookupC_insertMerge, if_neg (Ne.symm h)]

theorem keysC_insertMerge (a : Config) (k : String) (w : CVal) :
    (insertMerge a k w).map Prod.fst =
      if k ∈ a.map Prod.fst then a.map Prod.fst
      else a.map Prod.fst ++ [k] := by
  induction a with
  | nil => simp [insertMerge]
  | cons x t ih =>
    obtain ⟨k₀, v₀⟩ := x
    rw [insertMerge]
    by_cases h0 : k₀ = k
    · subst h0
      simp
    · rw [if_neg h0, List.map_cons, ih, List.map_cons]
      by_cases h1 : k ∈ t.map Prod.fst
      · rw [if_pos h1, if_pos (List.mem_cons_of_mem _ h1)]
      · rw [if_neg h1, if_neg ?_, List.cons_append]
        intro hmem
        rcases List.mem_cons.1 hmem with h | h
        · exact h0 h.symm
        · exact h1 h

theorem nodup_keysC_insertAll (b : List (String × CVal)) :
    ∀ a : Config, (a.map Prod.fst).Nodup →
      ((insertAll a b).map Prod.fst).Nodup := by
  induction b with
  | nil => intro a ha; rw [insertAll]; exact ha
  | cons x rest ih =>
    obtain ⟨k₁, w₁⟩ := x
    intro a ha
    rw [insertAll]
    apply ih
    rw [keysC_insertMerge]
    by_cases h : k₁ ∈ a.map Prod.fst
    · rw [if_pos h]; exact ha
    · rw [if_neg h]
      exact List.Nodup.append ha (List.nodup_singleton k₁)
        (by simpa using h)

theorem lookupC_popKey_self {l : Config} {k : String}
    (h : (l.map Prod.fst).Nodup) : lookupC (popKey l k) k = none := by
  induction l with
  | nil => rfl
  | cons x t ih =>
    obtain ⟨k₀, v₀⟩ := x
    rw [List.map_cons, List.nodup_cons] at h
    by_cases h0 : k₀ = k
    · subst h0
      simp only [popKey, if_pos rfl]
      exact lookupC_eq_none h.1
    · simp [popKey, lookupC, h0, ih h.2]

theorem lookupC_popKey_ne {l : Config} {k k' : String} (h : k' ≠ k) :
    lookupC (popKey l k) k' = lookupC l k' := by
  induction l with
  | nil => rfl
  | cons x t ih =>
    obtain ⟨k₀, v₀⟩ := x
    by_cases h0 : k₀ = k
    · subst h0
      simp [popKey, lookupC, Ne.symm h]
    · simp [popKey, lookupC, h0, ih]

theorem lookupC_setKey_self (l : Config) (k : String) (v : CVal) :
    lookupC (setKey l k v) k = some v := by
  induction l with
  | nil => simp [setKey, lookupC]
  | cons x t ih =>
    obtain ⟨k₀, v₀⟩ := x
    by_cases h0 : k₀ = k
    · subst h0
      simp [setKey, lookupC]
    · simp [setKey, lookupC, h0, ih]

theorem lookupC_setKey_ne (l : Config) (k k' : String) (v : CVal)
    (h : k' ≠ k) : lookupC (setKey l k v) k' = lookupC l k' := by
  induction l with
  | nil => simp [setKey, lookupC, Ne.symm h]
  | cons x t ih =>
    obtain ⟨k₀, v₀⟩ := x
    by_cases h0 : k₀ = k
    · subst h0
      simp [setKey, lookupC, Ne.symm h]
    · simp [setKey, lookupC, h0, ih]

theorem setKey_self {l : Config} {k : String} {v : CVal}
    (h : lookupC l k = some v) : setKey l k v = l := by
  induction l with
  | nil => simp [lookupC] at h
  | cons x t ih =>
    obtain ⟨k₀, v₀⟩ := x
    by_cases h0 : k₀ = k
    · subst h0
      rw [lookupC, if_pos rfl, Option.some.injEq] at h
      simp [setKey, h]
    · rw [lookupC, if_neg h0] at h
      simp [setKey, h0, ih h]

theorem mapMOpt_id {α : Type} {f : α → Option α} :
    ∀ {l : List α}, (∀ x ∈ l, f x = some x) → mapMOpt f l = some l := by
  intro l
  induction l with
  | nil => intro _; rfl
  | cons x rest ih =>
    intro h
    rw [mapMOpt, h x (List.mem_cons_self _ _), ih fun y hy =>
      h y (List.mem_cons_of_mem _ hy)]

/-- C4: resolving a part whose spec declares `load` with a well-formed
reference `modelID.partName@tag` (tag defaulting to `"latest"`) merges the
current part's spec on top of the source model's stored spec for that part
(current wins; keys only in the source are filled in), removes the per-part
`load` key, and synthesizes `weights = "modelID.partName@tag"` exactly when
the merged spec has no `weights` entry. -/
theorem resolvePart_load_spec (mdlF : String → Option Config) (part : Config)
    (r mdl pn ck : String) (srcCfg : Config)
    (srcParts : List (String × CVal)) (srcPart : Config)
    (hload : lookupC part "load" = some (.s r))
    (href : parseRef r = some (mdl, pn, ck))
    (hmdl : mdlF mdl = some srcCfg)
    (hparts : lookupC srcCfg "parts" = some (.m srcParts))
    (hsrc : lookupC srcParts pn = some (.m srcPart))
    (hndp : (part.map Prod.fst).Nodup)
    (hnds : (srcPart.map Prod.fst).Nodup) :
    ∃ part', resolvePart mdlF part = some part' ∧
      lookupC part' "load" = none ∧
      (∀ k v, k ≠ "load" → lookupC part k = some v →
        lookupC part' k = some (match lookupC srcPart k with
          | some sv => mergeVal sv v
          | none => v)) ∧
      (∀ k sv, lookupC part k = none → lookupC srcPart k = some sv →
        lookupC part' k = some sv) ∧
      (lookupC part "weights" = none → lookupC srcPart "weights" = none →
        lookupC part' "weights" = some (.s (mdl ++ "." ++ pn ++ "@" ++ ck))) := by
  have hmergelook : ∀ k : String, lookupC (insertAll srcPart part) k =
      match lookupC part k with
      | some w =>
        (match lookupC srcPart k with
          | some v => some (mergeVal v w)
          | none => some w)
      | none => lookupC srcPart k :=
    fun k => lookupC_insertAll k part hndp srcPart
  have hmergednd : ((insertAll srcPart part).map Prod.fst).Nodup :=
    nodup_keysC_insertAll part srcPart hnds
  have hpopload : lookupC (popKey (insertAll srcPart part) "load") "load" = none :=
    lookupC_popKey_self hmergednd
  have hpopne : ∀ k : String, k ≠ "load" →
      lookupC (popKey (insertAll srcPart part) "load") k =
        lookupC (insertAll srcPart part) k :=
    fun k hk => lookupC_popKey_ne hk
  have hres : resolvePart mdlF part =
      (let merged := popKey (insertAll srcPart part) "load"
       if (lookupC merged "weights").isSome then some merged
       else some (setKey merged "weights"
         (.s (mdl ++ "." ++ pn ++ "@" ++ ck)))) := by
    simp only [resolvePart, hload, href, hmdl, hparts, hsrc]
  by_cases hws : (lookupC (popKey (insertAll srcPart part) "load") "weights").isSome
  · refine ⟨popKey (insertAll srcPart part) "load", ?_, hpopload, ?_, ?_, ?_⟩
    · rw [hres]
      simp only [hws, if_pos]
    · intro k v hk hkv
      rw [hpopne k hk, hmergelook k, hkv]
      cases lookupC srcPart k <;> rfl
    · intro k sv hkn hksv
      have hk : k ≠ "load" := fun h => by
        rw [h, hload] at hkn
        exact Option.noConfusion hkn
      rw [hpopne k hk, hmergelook k, hkn, hksv]
    · intro hwn hsn
      exfalso
      have hwl : ("weights" : String) ≠ "load" := by decide
      rw [hpopne _ hwl, hmergelook _, hwn, hsn] at hws
      exact Bool.noConfusion hws
  · have hwnone : lookupC (popKey (insertAll srcPart part) "load") "weights" = none :=
      Option.not_isSome_iff_eq_none.1 hws
    refine ⟨setKey (popKey (insertAll srcPart part) "load") "weights"
      (.s (mdl ++ "." ++ pn ++ "@" ++ ck)), ?_, ?_, ?_, ?_, ?_⟩
    · rw [hres]
      simp only [hws, Bool.false_eq_true, if_false]
    · rw [lookupC_setKey_ne _ _ _ _ (by decide)]
      exact hpopload
    · intro k v hk hkv
      have hkw : k ≠ "weights" := fun h => by
        subst h
        have hwl : ("weights" : String) ≠ "load" := by decide
        rw [hpopne _ hwl, hmergelook _, hkv] at hwnone
        rcases hh : lookupC srcPart "weights" with _ | sv <;>
          rw [hh] at hwnone <;> exact Option.noConfusion hwnone
      rw [lookupC_setKey_ne _ _ _ _ hkw, hpopne k hk, hmergelook k, hkv]
      cases lookupC srcPart k <;> rfl
    · intro k sv hkn hksv
      have hk : k ≠ "load" := fun h => by
        rw [h, hload] at hkn
        exact Option.noConfusion hkn
      have hkw : k ≠ "weights" := fun h => by
        subst h
        rw [hpopne _ hk, hmergelook _, hkn, hksv] at hwnone
        exact Option.noConfusion hwnone
      rw [lookupC_setKey_ne _ _ _ _ hkw, hpopne k hk, hmergelook k, hkn, hksv]
    · intro _ _
      exact lookupC_setKey_self _ _ _

/-- C4 witness: the spec's example — a part with `load: "5.encoder@2.0"`
and no explicit `weights` resolves to a spec whose `weights` equals
`"5.encoder@2.0"`; concretely the resolved spec is
`[("arch", "enc"), ("weights", "5.encoder@2.0")]`. -/
theorem resolvePart_load_spec_witness :
    (lookupC [("load", CVal.s "5.encoder@2.0")] "load"
        = some (.s "5.encoder@2.0") ∧
      parseRef "5.encoder@2.0" = some ("5", "encoder", "2.0")) ∧
    (∃ part', resolvePart
        (fun m => if m = "5"
          then some [("parts", CVal.m [("encoder", CVal.m [("arch", CVal.s "enc")])])]
          else none)
        [("load", CVal.s "5.encoder@2.0")] = some part' ∧
      lookupC part' "load" = none ∧
      (∀ k v, k ≠ "load" →
        lookupC [("load", CVal.s "5.encoder@2.0")] k = some v →
        lookupC part' k = some (match lookupC [("arch", CVal.s "enc")] k with
          | some sv => mergeVal sv v
          | none => v)) ∧
      (∀ k sv, lookupC [("load", CVal.s "5.encoder@2.0")] k = none →
        lookupC [("arch", CVal.s "enc")] k = some sv →
        lookupC part' k = some sv) ∧
      (lookupC [("load", CVal.s "5.encoder@2.0")] "weights" = none →
        lookupC [("arch", CVal.s "enc")] "weights" = none →
        lookupC part' "weights" = some (.s ("5" ++ "." ++ "encoder" ++ "@" ++ "2.0")))) ∧
    resolvePart
        (fun m => if m = "5"
          then some [("parts", CVal.m [("encoder", CVal.m [("arch", CVal.s "enc")])])]
          else none)
        [("load", CVal.s "5.encoder@2.0")]
      = some [("arch", CVal.s "enc"), ("weights", CVal.s "5.encoder@2.0")] :=
  ⟨⟨rfl, rfl⟩,
    resolvePart_load_spec
      (fun m => if m = "5"
        then some [("parts", CVal.m [("encoder", CVal.m [("arch", CVal.s "enc")])])]
        else none)
      [("load", CVal.s "5.encoder@2.0")] "5.encoder@2.0" "5" "encoder" "2.0"
      [("parts", CVal.m [("encoder", CVal.m [("arch", CVal.s "enc")])])]
      [("encoder", CVal.m [("arch", CVal.s "enc")])]
      [("arch", CVal.s "enc")]
      rfl rfl rfl rfl rfl (by decide) (by decide),
    by simp [resolvePart, parseRef, pySplit, splitChar, insertAll, insertMerge,
      mergeVal, popKey, setKey, lookupC]⟩

/-- C9 (amended): resolving an already-fully-resolved config that has a
`parts` mapping — no top-level or per-part `load` keys, `batch_size`,
`epochs` and `validation_batch_size` all present — with an empty override
list returns it unchanged. -/
theorem parse_config_idem (cfgF mdlF : String → Option Config) (conf : Config)
    (parts : List (String × CVal))
    (hload : lookupC conf "load" = none)
    (hparts : lookupC conf "parts" = some (.m parts))
    (hpl : ∀ p ∈ parts, ∀ pm, p.2 = CVal.m pm → lookupC pm "load" = none)
    (hbs : (lookupC conf "batch_size").isSome)
    (hep : (lookupC conf "epochs").isSome)
    (hvb : (lookupC conf "validation_batch_size").isSome) :
    parse_config cfgF mdlF conf [] = some conf := by
  obtain ⟨bv, hbv⟩ := Option.isSome_iff_exists.1 hbs
  obtain ⟨ev, hev⟩ := Option.isSome_iff_exists.1 hep
  obtain ⟨vv, hvv⟩ := Option.isSome_iff_exists.1 hvb
  have hmap : mapMOpt (fun p => match p.2 with
      | CVal.m pm => (resolvePart mdlF pm).map (fun pm' => (p.1, CVal.m pm'))
      | _ => some p) parts = some parts := by
    apply mapMOpt_id
    intro p hp
    rcases hp2 : p.2 with v | v | v | vs | pm
    · simp [hp2]
    · simp [hp2]
    · simp [hp2]
    · simp [hp2]
    · have hres : resolvePart mdlF pm = some pm := by
        simp only [resolvePart, hpl p hp pm hp2]
      simp only [hp2, hres, Option.map_some']
      rw [← hp2, Prod.mk.eta]
  simp only [parse_config, insertAll, hload, hparts, hmap, setKey_self hparts,
    hbv, hev, hvv, Option.getD_some, setKey_self hbv, setKey_self hev,
    setKey_self hvv]

/-- C9 counterexample: the claim as stated fails for a config with no
`parts` section.  It is fully resolved in the claim's sense (no `load`
keys anywhere, `batch_size`, `epochs`, `validation_batch_size` present),
yet `parse_config` raises (`conf.parts` attribute access) instead of
returning the config unchanged. -/
theorem parse_config_no_parts_fails :
    parse_config (fun _ => none) (fun _ => none)
        [("batch_size", CVal.n 16), ("epochs", CVal.n 10),
          ("validation_batch_size", CVal.n 32)] [] = none ∧
      lookupC [("batch_size", CVal.n 16), ("epochs", CVal.n 10),
          ("validation_batch_size", CVal.n 32)] "load" = none ∧
      (lookupC [("batch_size", CVal.n 16), ("epochs", CVal.n 10),
          ("validation_batch_size", CVal.n 32)] "batch_size").isSome ∧
      (lookupC [("batch_size", CVal.n 16), ("epochs", CVal.n 10),
          ("validation_batch_size", CVal.n 32)] "epochs").isSome ∧
      (lookupC [("batch_size", CVal.n 16), ("epochs", CVal.n 10),
          ("validation_batch_size", CVal.n 32)] "validation_batch_size").isSome := by
  refine ⟨?_, rfl, rfl, rfl, rfl⟩
  simp [parse_config, insertAll, lookupC]

/-- C9 witness: a concrete fully-resolved config with a `parts` mapping is
returned unchanged. -/
theorem parse_config_idem_witness :
    parse_config (fun _ => none) (fun _ => none)
        [("parts", CVal.m [("enc", CVal.m [("arch", CVal.s "resnet")])]),
          ("batch_size", CVal.n 16), ("epochs", CVal.n 10),
          ("validation_batch_size", CVal.n 32)] []
      = some [("parts", CVal.m [("enc", CVal.m [("arch", CVal.s "resnet")])]),
          ("batch_size", CVal.n 16), ("epochs", CVal.n 10),
          ("validation_batch_size", CVal.n 32)] :=
  parse_config_idem (fun _ => none) (fun _ => none) _
    [("enc", CVal.m [("arch", CVal.s "resnet")])] rfl rfl
    (by
      intro p hp pm hpm
      rw [List.mem_singleton] at hp
      subst hp
      injection hpm with h
      subst h
      rfl)
    rfl rfl rfl

theorem rank_nonzero_save_noop (rank : ℕ) (mdlPath : String) (epochs : ℕ)
    (h : rank ≠ 0) :
    assignSaver rank mdlPath = none ∧
      assignLogger rank mdlPath epochs = none ∧
      ∀ (store : List (String × ℕ)) (snap : ℕ),
        saverSave (assignSaver rank mdlPath) store snap = store := by
  refine ⟨?_, ?_, ?_⟩ <;> simp [assignSaver, assignLogger, saverSave, h]

/-- C5 witness: rank 1. -/
theorem rank_nonzero_save_noop_witness :
    (1 : ℕ) ≠ 0 ∧
      (assignSaver 1 "models/3" = none ∧
        assignLogger 1 "models/3" 10 = none ∧
        ∀ (store : List (String × ℕ)) (snap : ℕ),
          saverSave (assignSaver 1 "models/3") store snap = store) :=
  ⟨by decide, rank_nonzero_save_noop 1 "models/3" 10 (by decide)⟩

/-- C6: evaluating the resume path at a checkpoint whose `optimizers`
mapping holds the global optimizer's state shows the restore failing with a
`KeyError`: `trainer.optimizers` is still the empty dict of
`BaseTrainer.__init__` because `instantiate_optimizers` only runs
afterwards (manager.py line 263).  The same restore into the instantiated
optimizers (the intended order) would succeed. -/
theorem resume_optimizer_restore_fails :
    trainSetupOptimizers
        (some ⟨[("encoder", 1)], [("__global", 7)]⟩) none [("__global", 5)]
      = none ∧
      restoreOptimizers [("__global", 5)] [("__global", 7)]
        = some [("__global", 7)] :=
  ⟨rfl, rfl⟩

theorem lookupA_mem {α : Type} {l : List (String × α)} {k : String} {v : α}
    (h : lookupA l k = some v) : (k, v) ∈ l := by
  induction l with
  | nil => simp [lookupA] at h
  | cons x t ih =>
    obtain ⟨k₀, v₀⟩ := x
    by_cases h0 : k₀ = k
    · subst h0
      rw [lookupA, if_pos rfl, Option.some.injEq] at h
      rw [← h]
      exact List.mem_cons_self _ _
    · rw [lookupA, if_neg h0] at h
      exact List.mem_cons_of_mem _ (ih h)

theorem mem_setA {α : Type} {l : List (String × α)} {k : String} {v : α}
    {q : String × α} (h : q ∈ setA l k v) : q = (k, v) ∨ q ∈ l := by
  induction l with
  | nil =>
    simp only [setA, List.mem_singleton] at h
    exact Or.inl h
  | cons x t ih =>
    obtain ⟨k₀, v₀⟩ := x
    by_cases h0 : k₀ = k
    · subst h0
      rw [setA, if_pos rfl] at h
      rcases List.mem_cons.1 h with h1 | h1
      · exact Or.inl h1
      · exact Or.inr (List.mem_cons_of_mem _ h1)
    · rw [setA, if_neg h0] at h
      rcases List.mem_cons.1 h with h1 | h1
      · exact Or.inr (by rw [h1]; exact List.mem_cons_self _ _)
      · rcases ih h1 with h2 | h2
        · exact Or.inl h2
        · exact Or.inr (List.mem_cons_of_mem _ h2)

/-- With a positive batch weight, the metric loop never divides by zero:
all estimators keep nonnegative total weight, and the pass succeeds. -/
theorem processMetrics_pos (w : ℚ) (hw : 0 < w) :
    ∀ (metrics : List (String × ℚ)) (ests : List (String × AvgEstimator)),
      (∀ q ∈ ests, 0 ≤ q.2.tot_weight) →
      ∃ ests', processMetrics ests w metrics = some ests' ∧
        ∀ q ∈ ests', 0 ≤ q.2.tot_weight := by
  intro metrics
  induction metrics with
  | nil => intro ests hinv; exact ⟨ests, rfl, hinv⟩
  | cons p rest ih =>
    intro ests hinv
    obtain ⟨k, v⟩ := p
    have hnn : 0 ≤ ((lookupA ests k).getD AvgEstimator.init).tot_weight := by
      rcases hl : lookupA ests k with _ | e
      · simp [AvgEstimator.init]
      · simpa using hinv (k, e) (lookupA_mem hl)
    have htpos : 0 < ((lookupA ests k).getD AvgEstimator.init).tot_weight + w := by
      linarith
    have hupd := @update_eq_some ((lookupA ests k).getD AvgEstimator.init) v w
      (ne_of_gt htpos)
    obtain ⟨ests', hrun, hinv'⟩ := ih
      (setA ests k
        ⟨((lookupA ests k).getD AvgEstimator.init).avg +
          (v - ((lookupA ests k).getD AvgEstimator.init).avg) * w /
            (((lookupA ests k).getD AvgEstimator.init).tot_weight + w),
          ((lookupA ests k).getD AvgEstimator.init).tot_weight + w⟩)
      (by
        intro q hq
        rcases mem_setA hq with h1 | h1
        · rw [h1]
          dsimp only
          linarith
        · exact hinv q h1)
    refine ⟨ests', ?_, hinv'⟩
    simp only [processMetrics, hupd]
    exact hrun

/-- With positive weights on every batch, the whole validation pass
succeeds. -/
theorem runValBatches_pos (vstep : ℕ → ℕ → List (String × ℚ)) :
    ∀ (bs : List (ℕ × ℕ)) (ests : List (String × AvgEstimator)),
      (∀ pb ∈ bs, 0 < batchWeight (vstep pb.2 pb.1)) →
      (∀ q ∈ ests, 0 ≤ q.2.tot_weight) →
      ∃ ests', runValBatches vstep bs ests = some ests' := by
  intro bs
  induction bs with
  | nil => intro ests _ _; exact ⟨ests, rfl⟩
  | cons pb rest ih =>
    intro ests hw hinv
    obtain ⟨i, b⟩ := pb
    have hwpos : 0 < batchWeight (vstep b i) :=
      hw (i, b) (List.mem_cons_self _ _)
    obtain ⟨ests', hrun, hinv'⟩ :=
      processMetrics_pos _ hwpos (vstep b i) ests hinv
    obtain ⟨ests'', hrun'⟩ :=
      ih ests' (fun q hq => hw q (List.mem_cons_of_mem _ hq)) hinv'
    refine ⟨ests'', ?_⟩
    simp only [runValBatches, processBatch, hrun]
    exact hrun'

/-- C7 (amended): as long as every per-batch weight read by `validate` is
positive (the default is `1.0`), every invocation calls the saver exactly
once, with an empty metric set when no validation dataloader is configured;
and the training loop runs an end-of-epoch validate (which checkpoints) on
every epoch boundary regardless of the trigger set. -/
theorem validate_saves_once (vdl : Option (List ℕ))
    (vstep : ℕ → ℕ → List (String × ℚ))
    (hw : ∀ p ∈ (vdl.getD []).enum, 0 < batchWeight (vstep p.2 p.1)) :
    (∃ r, validate vdl vstep = some r ∧
      r.savedMetricSets = [r.metrics] ∧ (vdl = none → r.metrics = [])) ∧
    ∀ epochs n vset e, e < epochs →
      (e, n) ∈ trainValidationCalls epochs n vset := by
  constructor
  · rcases vdl with _ | batches
    · exact ⟨⟨[], [[]]⟩, rfl, rfl, fun _ => rfl⟩
    · have hw' : ∀ p ∈ batches.enum, 0 < batchWeight (vstep p.2 p.1) := by
        simpa using hw
      obtain ⟨ests', hrun⟩ := runValBatches_pos vstep batches.enum [] hw'
        (fun q hq => absurd hq (List.not_mem_nil q))
      refine ⟨⟨ests'.map (fun p => (p.1, p.2.get)),
        [ests'.map (fun p => (p.1, p.2.get))]⟩, ?_, rfl,
        fun h => Option.noConfusion h⟩
      simp only [validate, hrun]
  · intro epochs n vset e he
    rw [trainValidationCalls, List.mem_flatMap]
    exact ⟨e, List.mem_range.2 he,
      List.mem_append.2 (Or.inr (List.mem_singleton.2 rfl))⟩

/-- C7 counterexample: a validation step returning `{"weight": 0.0}` makes
the first estimator update divide by zero, so `validate` raises before the
saver is ever called — the claim's "calls the checkpoint saver exactly
once" fails. -/
theorem validate_zero_weight_aborts :
    validate (some [0]) (fun _ _ => [("weight", (0 : ℚ))]) = none := by
  simp [validate, runValBatches, processBatch, processMetrics, batchWeight,
    lookupA, AvgEstimator.update, AvgEstimator.init]

/-- C7 witness: with no validation dataloader, `validate` still performs
exactly one save and hands it the empty metric set. -/
theorem validate_saves_once_witness :
    (∀ p ∈ ((none : Option (List ℕ)).getD []).enum,
        0 < batchWeight ((fun _ _ => ([] : List (String × ℚ))) p.2 p.1)) ∧
      ((∃ r, validate none (fun _ _ => ([] : List (String × ℚ))) = some r ∧
          r.savedMetricSets = [r.metrics] ∧
          ((none : Option (List ℕ)) = none → r.metrics = [])) ∧
        ∀ epochs n vset e, e < epochs →
          (e, n) ∈ trainValidationCalls epochs n vset) :=
  ⟨by simp, validate_saves_once none (fun _ _ => []) (by simp)⟩

end Erlich
